import Mathlib

/-!
Shallow embedding of the data pipeline of `src/app.py` (function
`load_and_engineer_data` and the aggregation used by the display layer),
together with theorems settling the frozen claims about it.

Modelling conventions, stated once:
* pandas float values are modelled exactly: a cell of a float Series is a
  `FVal`, either a rational number, `inf`, `ninf` (the two IEEE infinities)
  or `nan`.  Rational arithmetic replaces IEEE rounding; every claim below
  is about the discrete structure of the computation (NaN markers,
  saturation at 100, signs), not about rounding error.  The sign of zero is
  collapsed: `x / inf` and `x / ninf` are both the plain zero.
* timestamps (`ingested_at`) are modelled as integers after `pd.to_datetime`;
  the claims only use their ordering.
* `np.random.rand` is modelled as a deterministic stream driven by the seed
  through a linear congruential step; the claims depend only on the stream
  being a function of the seed, never on the concrete values drawn.
-/

/-- Exact model of a pandas float cell: a rational, one of the two
infinities, or NaN. -/
inductive FVal where
  | num : ℚ → FVal
  | inf : FVal
  | ninf : FVal
  | nan : FVal
deriving DecidableEq, Repr

namespace FVal

/-- Addition on float cells: NaN propagates, opposite infinities give NaN. -/
def fadd : FVal → FVal → FVal
  | num a, num b => num (a + b)
  | num _, inf => inf
  | num _, ninf => ninf
  | inf, num _ => inf
  | ninf, num _ => ninf
  | inf, inf => inf
  | ninf, ninf => ninf
  | inf, ninf => nan
  | ninf, inf => nan
  | nan, _ => nan
  | _, nan => nan

/-- Negation on float cells. -/
def fneg : FVal → FVal
  | num a => num (-a)
  | inf => ninf
  | ninf => inf
  | nan => nan

/-- Subtraction on float cells. -/
def fsub (a b : FVal) : FVal := fadd a (fneg b)

/-- Multiplication on float cells: zero times an infinity is NaN. -/
def fmul : FVal → FVal → FVal
  | num a, num b => num (a * b)
  | num a, inf => if a = 0 then nan else if 0 < a then inf else ninf
  | num a, ninf => if a = 0 then nan else if 0 < a then ninf else inf
  | inf, num b => if b = 0 then nan else if 0 < b then inf else ninf
  | ninf, num b => if b = 0 then nan else if 0 < b then ninf else inf
  | inf, inf => inf
  | ninf, ninf => inf
  | inf, ninf => ninf
  | ninf, inf => ninf
  | nan, _ => nan
  | _, nan => nan

/-- Division on float cells, with the numpy conventions the pipeline relies
on: a nonzero number over zero is a signed infinity, zero over zero is NaN,
a number over an infinity is zero, infinity over infinity is NaN. -/
def fdiv : FVal → FVal → FVal
  | num a, num b =>
      if b = 0 then (if a = 0 then nan else if 0 < a then inf else ninf)
      else num (a / b)
  | num _, inf => num 0
  | num _, ninf => num 0
  | inf, num b => if 0 ≤ b then inf else ninf
  | ninf, num b => if 0 ≤ b then ninf else inf
  | inf, inf => nan
  | inf, ninf => nan
  | ninf, inf => nan
  | ninf, ninf => nan
  | nan, _ => nan
  | _, nan => nan

end FVal

/-- Raw cell of the fetched JSON payload: a number, a string, or null. -/
inductive RawVal where
  | rnum : ℚ → RawVal
  | rstr : String → RawVal
  | rnull : RawVal
deriving DecidableEq, Repr

/-- Value of a nonempty all-digit character list, read in base 10. -/
def digitsVal (cs : List Char) : ℕ :=
  cs.foldl (fun n c => 10 * n + (c.toNat - 48)) 0

/-- Parse a nonempty run of decimal digits. -/
def parseNatDigits (cs : List Char) : Option ℕ :=
  if cs ≠ [] ∧ cs.all (·.isDigit) then some (digitsVal cs) else none

/-- Parse an unsigned decimal literal, with an optional fractional part,
modelling the numeric strings `pd.to_numeric` accepts. -/
def parseUnsigned (cs : List Char) : Option ℚ :=
  match cs.splitOn '.' with
  | [ds] => (parseNatDigits ds).map (fun n => (n : ℚ))
  | [ds, fs] =>
      if ds = [] ∧ fs = [] then none
      else if ds.all (·.isDigit) ∧ fs.all (·.isDigit) then
        some ((digitsVal ds : ℚ) + (digitsVal fs : ℚ) / ((10 : ℚ) ^ fs.length))
      else none
  | _ => none

/-- Parse a signed decimal literal. -/
def parseSigned (cs : List Char) : Option ℚ :=
  match cs with
  | '-' :: rest => (parseUnsigned rest).map Neg.neg
  | '+' :: rest => parseUnsigned rest
  | _ => parseUnsigned cs

/-- Model of `pd.to_numeric(x, errors='coerce')` on one cell: numbers pass
through, strings are parsed as decimal literals, anything unparseable and
null become NaN (`none`). -/
def to_numeric : RawVal → Option ℚ
  | .rnum q => some q
  | .rstr s => parseSigned s.data
  | .rnull => none

/-- Model of one cell of `pd.to_numeric(col, errors='coerce').fillna(0)`
from line 32 of `src/app.py`: coerce, then replace NaN by 0. -/
def sanitizeVal (v : RawVal) : ℚ :=
  (to_numeric v).getD 0

/-- Sanitize a whole declared-numeric column. -/
def sanitizeColumn (c : List RawVal) : List ℚ :=
  c.map sanitizeVal

/-- Raw fetched row, the shape of one object of the JSON array returned by
the REST endpoint.  `ingested_at` is kept as an already-parsed integer
timestamp; the claims never exercise timestamp parsing. -/
structure RawRow where
  symbol : String
  price : RawVal
  day_high : RawVal
  day_low : RawVal
  day_open : RawVal
  prev_close : RawVal
  change_pct : RawVal
  ingested_at : ℤ
deriving DecidableEq, Repr

/-- Sanitized market row, after line 32 of `src/app.py`. -/
structure Row where
  symbol : String
  price : ℚ
  day_high : ℚ
  day_low : ℚ
  day_open : ℚ
  prev_close : ℚ
  change_pct : ℚ
  ingested_at : ℤ
deriving DecidableEq, Repr

instance : Inhabited Row :=
  ⟨⟨"", 0, 0, 0, 0, 0, 0, 0⟩⟩

/-- Sanitization of one row: each declared-numeric column is coerced with
NaN replaced by 0; symbol and timestamp pass through. -/
def sanitizeRow (r : RawRow) : Row where
  symbol := r.symbol
  price := sanitizeVal r.price
  day_high := sanitizeVal r.day_high
  day_low := sanitizeVal r.day_low
  day_open := sanitizeVal r.day_open
  prev_close := sanitizeVal r.prev_close
  change_pct := sanitizeVal r.change_pct
  ingested_at := r.ingested_at

/-- Model of `series.diff()`: the first entry is NaN (`none`), entry `i`
for `i > 0` is `series[i] - series[i-1]`. -/
def diffSeries : List ℚ → List (Option ℚ)
  | [] => []
  | a :: t => none :: List.zipWith (fun cur prev => some (cur - prev)) t (a :: t)

/-- Model of `delta.where(delta > 0, 0)` from line 41 of `src/app.py`: a
positive delta is kept, everything else (including the leading NaN, which
compares false) becomes 0. -/
def gains (l : List ℚ) : List ℚ :=
  (diffSeries l).map (fun d => match d with
    | some x => if 0 < x then x else 0
    | none => 0)

/-- Model of `(-delta.where(delta < 0, 0))` from line 42 of `src/app.py`:
the magnitude of a negative delta, else 0. -/
def losses (l : List ℚ) : List ℚ :=
  (diffSeries l).map (fun d => match d with
    | some x => if x < 0 then -x else 0
    | none => 0)

/-- Model of `Series.rolling(window=w).mean()`: position `i` is NaN
(`none`) while fewer than `w` observations are available, and otherwise the
mean of entries `i-w+1 .. i`. -/
def rollingMean (w : ℕ) (l : List ℚ) : List (Option ℚ) :=
  (List.range l.length).map (fun i =>
    if i + 1 < w then none
    else some (((l.drop (i + 1 - w)).take w).sum / (w : ℚ)))

/-- Elementwise `gain / loss` from line 43 of `src/app.py`, on two cells of
the rolling-mean Series: NaN on either side propagates, a positive average
gain over a zero average loss is `inf`, zero over zero is NaN. -/
def rsCell : Option ℚ → Option ℚ → FVal
  | some g, some lo =>
      if lo = 0 then (if g = 0 then FVal.nan else if 0 < g then FVal.inf else FVal.ninf)
      else FVal.num (g / lo)
  | _, _ => FVal.nan

/-- Model of `100 - (100 / (1 + rs))` from line 44 of `src/app.py`, in
float-cell arithmetic. -/
def rsiOfRs (rs : FVal) : FVal :=
  FVal.fsub (FVal.num 100) (FVal.fdiv (FVal.num 100) (FVal.fadd (FVal.num 1) rs))

/-- Model of `calc_rsi` (lines 39 to 44 of `src/app.py`) on one symbol's
time-ordered price series. -/
def calc_rsi (l : List ℚ) (periods : ℕ) : List FVal :=
  List.zipWith (fun g lo => rsiOfRs (rsCell g lo))
    (rollingMean periods (gains l)) (rollingMean periods (losses l))

/-- Running maximum, the tail recursion behind `Series.cummax()`. -/
def cummaxGo (m : ℚ) : List ℚ → List ℚ
  | [] => []
  | b :: t => max m b :: cummaxGo (max m b) t

/-- Model of `x.cummax()` from line 49 of `src/app.py`. -/
def cummax : List ℚ → List ℚ
  | [] => []
  | a :: t => a :: cummaxGo a t

/-- One cell of `((df['price'] - df['rolling_max']) / df['rolling_max']) * 100`
from line 50 of `src/app.py`. -/
def ddCell (p m : ℚ) : FVal :=
  FVal.fmul (FVal.fdiv (FVal.fsub (FVal.num p) (FVal.num m)) (FVal.num m)) (FVal.num 100)

/-- Drawdown column of one symbol's time-ordered price series. -/
def drawdownList (l : List ℚ) : List FVal :=
  List.zipWith ddCell l (cummax l)

/-- Sort key of `df.sort_values(['symbol', 'ingested_at'])` from line 35 of
`src/app.py`: lexicographic on the symbol string (python compares strings
lexicographically by code point, modelled as the lexicographic order on
the character list), then the timestamp.  The multi-column sort in pandas
is a stable lexsort, which insertion sort mirrors. -/
def rowLE (a b : Row) : Prop :=
  a.symbol.data < b.symbol.data ∨
    (a.symbol = b.symbol ∧ a.ingested_at ≤ b.ingested_at)

instance : DecidableRel rowLE := fun a b => by
  unfold rowLE; infer_instance

instance : IsTotal Row rowLE where
  total a b := by
    unfold rowLE
    rcases lt_trichotomy a.symbol.data b.symbol.data with h | h | h
    · exact Or.inl (Or.inl h)
    · rcases le_total a.ingested_at b.ingested_at with h2 | h2
      · exact Or.inl (Or.inr ⟨String.ext h, h2⟩)
      · exact Or.inr (Or.inr ⟨(String.ext h).symm, h2⟩)
    · exact Or.inr (Or.inl h)

instance : IsTrans Row rowLE where
  trans a b c hab hbc := by
    unfold rowLE at *
    rcases hab with h1 | ⟨e1, t1⟩
    · rcases hbc with h2 | ⟨e2, _⟩
      · exact Or.inl (h1.trans h2)
      · exact Or.inl (by rw [← e2]; exact h1)
    · rcases hbc with h2 | ⟨e2, t2⟩
      · exact Or.inl (by rw [e1]; exact h2)
      · exact Or.inr ⟨e1.trans e2, t1.trans t2⟩

/-- Model of line 35 of `src/app.py`: stable sort of the table by
`(symbol, ingested_at)`. -/
def sortTable (t : List Row) : List Row :=
  List.insertionSort rowLE t

/-- Fuel-driven helper for `groupRuns`: the fuel always dominates the list
length, so the zero-fuel branch on a nonempty list is never reached. -/
def groupRunsF : ℕ → List Row → List (List Row)
  | _, [] => []
  | 0, _ :: _ => []
  | fuel + 1, a :: t =>
      (a :: t.takeWhile (fun r => r.symbol == a.symbol)) ::
        groupRunsF fuel (t.dropWhile (fun r => r.symbol == a.symbol))

/-- Contiguous runs of rows sharing one symbol.  Applied to the sorted
table this realizes the groups of `df.groupby('symbol')`. -/
def groupRuns (l : List Row) : List (List Row) :=
  groupRunsF l.length l

/-- Row of the derived table: the sanitized row plus the columns added on
lines 46 to 55 of `src/app.py`.  `TER` and `Sharpe` hold the placeholder 0
until the synthetic columns are drawn. -/
structure DRow where
  core : Row
  RSI : FVal
  rolling_max : ℚ
  drawdown : FVal
  TER : ℚ
  Sharpe : ℚ
deriving DecidableEq, Repr

instance : Inhabited DRow :=
  ⟨⟨default, FVal.nan, 0, FVal.nan, 0, 0⟩⟩

/-- Per-group column computation: RSI of the group's price series (line 46),
its running maximum (line 49) and the elementwise drawdown (line 50). -/
def addGroupCols (g : List Row) : List DRow :=
  List.zipWith (fun r (v : FVal × ℚ) =>
      ⟨r, v.1, v.2, ddCell r.price v.2, 0, 0⟩)
    g (List.zip (calc_rsi (g.map (·.price)) 14) (cummax (g.map (·.price))))

/-- Lines 35 to 50 of `src/app.py`: sort the sanitized table, then compute
RSI, rolling maximum and drawdown per symbol group. -/
def deriveTable (t : List Row) : List DRow :=
  (groupRuns (sortTable t)).map addGroupCols |>.flatten

/-- One linear-congruential step, standing in for the Mersenne Twister
behind `np.random.rand`; the claims depend only on the stream being a
deterministic function of the seed. -/
def lcgStep (s : ℕ) : ℕ :=
  (6364136223846793005 * s + 1442695040888963407) % 2 ^ 64

/-- Draw `n` uniform rationals in `[0, 1)` from the current generator
state, returning the draws and the final state. -/
def randStream : ℕ → ℕ → List ℚ × ℕ
  | 0, s => ([], s)
  | n + 1, s =>
      let s1 := lcgStep s
      let rest := randStream n s1
      (((s1 : ℚ) / ((2 : ℚ) ^ 64)) :: rest.1, rest.2)

/-- Model of lines 53 to 55 of `src/app.py`: re-seed the generator with 42,
then draw the synthetic `TER` and `Sharpe` columns positionally over the
whole table. -/
def addSynth (dt : List DRow) : List DRow × ℕ :=
  let s0 := 42
  let ters := randStream dt.length s0
  let sharpes := randStream dt.length ters.2
  (List.zipWith (fun r (v : ℚ × ℚ) =>
      { r with TER := 0.15 + v.1 * 0.5, Sharpe := 1.2 + v.2 * 2.1 })
    dt (List.zip ters.1 sharpes.1), sharpes.2)

/-- Full table computation of the `try` block of `load_and_engineer_data`
for a nonempty payload: sanitize, sort, derive, draw synthetic columns. -/
def pipelineTable (payload : List RawRow) : List DRow :=
  (addSynth (deriveTable (payload.map sanitizeRow))).1

/-- Result of one invocation of `load_and_engineer_data`: the returned
table and whether the error state (`st.error`) was shown. -/
structure PipeResult where
  table : List DRow
  errorShown : Bool
deriving DecidableEq, Repr

/-- Body of the `try` block (lines 27 to 57 of `src/app.py`).  On an empty
payload `pd.DataFrame(response.json())` has no columns at all, so the very
first column access `df['price']` on line 32 raises `KeyError`; that is the
only failure the claims exercise, every later stage is total. -/
def engineerTable (payload : List RawRow) : Except String (List DRow) :=
  if payload.isEmpty then Except.error "KeyError: price"
  else Except.ok (pipelineTable payload)

/-- Model of `load_and_engineer_data` (lines 22 to 60 of `src/app.py`): the
global numpy generator state comes in, the `except` branch shows the error
state and returns an empty frame.  The output table never depends on the
incoming generator state because line 53 re-seeds it with 42. -/
def load_and_engineer_data (payload : List RawRow) (rng : ℕ) : PipeResult × ℕ :=
  match engineerTable payload with
  | Except.ok t => (⟨t, false⟩, (addSynth (deriveTable (payload.map sanitizeRow))).2)
  | Except.error _ => (⟨[], true⟩, rng)

/-- Last non-null cell of a float column, the per-column reduction behind
`GroupBy.last()` (it skips NaN by default); when every cell is NaN the
result is NaN. -/
def lastNonNull (c : List FVal) : FVal :=
  ((c.filter (fun v => v ≠ FVal.nan)).getLast?).getD FVal.nan

/-- One output row of `df.groupby('symbol').last()`: every column reduced
to its last non-null value within the group. -/
structure AggRow where
  price : ℚ
  day_high : ℚ
  day_low : ℚ
  day_open : ℚ
  prev_close : ℚ
  change_pct : ℚ
  ingested_at : ℤ
  RSI : FVal
  rolling_max : ℚ
  drawdown : FVal
  TER : ℚ
  Sharpe : ℚ
deriving DecidableEq, Repr

/-- Reduce one symbol group.  The never-null columns (all the rationals and
the timestamp) come from the group's last row; the float columns that can
hold NaN (`RSI`, `drawdown`) take their last non-null cell. -/
def aggRow (g : List DRow) : AggRow :=
  let lastRow := g.getLast?.getD default
  { price := lastRow.core.price
    day_high := lastRow.core.day_high
    day_low := lastRow.core.day_low
    day_open := lastRow.core.day_open
    prev_close := lastRow.core.prev_close
    change_pct := lastRow.core.change_pct
    ingested_at := lastRow.core.ingested_at
    RSI := lastNonNull (g.map (·.RSI))
    rolling_max := lastRow.rolling_max
    drawdown := lastNonNull (g.map (·.drawdown))
    TER := lastRow.TER
    Sharpe := lastRow.Sharpe }

/-- Model of `df.groupby('symbol').last()` from line 159 of `src/app.py`:
one reduced row per distinct symbol, rows within a group taken in table
order. -/
def aggLatest (dt : List DRow) : List (String × AggRow) :=
  ((dt.map (fun r => r.core.symbol)).dedup).map
    (fun s => (s, aggRow (dt.filter (fun r => r.core.symbol = s))))

/-- Modelled from the spec: the feature engine's `volatility_spread`
column is absent from `src/app.py` (the revision only sanitizes `day_high`
and `day_low`); per spec section 4.3 the computation is
`(day_high - day_low) / day_low * 100` with sentinel 0 when `day_low` is
zero. -/
def volatility_spread (day_high day_low : ℚ) : ℚ :=
  if day_low = 0 then 0 else (day_high - day_low) / day_low * 100

/-- Modelled from the spec: the feature engine's `gap_pct` column is absent
from `src/app.py`; per spec section 4.3 the computation is
`(day_open - prev_close) / prev_close * 100` with sentinel 0 when
`prev_close` is zero. -/
def gap_pct (day_open prev_close : ℚ) : ℚ :=
  if prev_close = 0 then 0 else (day_open - prev_close) / prev_close * 100

/-- Reference selection the spec describes for the aggregator: fold over
the rows in original order, keeping the row with the larger timestamp and
preferring the later row on ties. -/
def pickLater (a b : Row) : Row :=
  if a.ingested_at ≤ b.ingested_at then b else a

/-- Latest row of a nonempty group per the spec's words: maximum
`ingested_at`, ties broken by insertion order with the last occurrence
winning. -/
def latestRow (a : Row) (l : List Row) : Row :=
  l.foldl pickLater a

/-- Latest row of a group given as one list, empty list mapped to the
default row; the shape `aggRow` consumes. -/
def latestRowOf : List Row → Row
  | [] => default
  | a :: t => latestRow a t

/-- Recursive description of the last element of the insertion-sorted
list, used to connect the sorted group's last row to the spec's
fold-over-original-order selection. -/
def sortLast : Row → List Row → Row
  | a, [] => a
  | a, b :: t => if rowLE a (sortLast b t) then sortLast b t else a

/-- Concrete 16-row payload for one symbol whose price series rises once
and then stays flat long enough for the final rolling window to become
constant: the last row's RSI is NaN while an earlier row's RSI is 100. -/
def cexPayload : List RawRow :=
  (List.range 16).map (fun i =>
    ⟨"A", RawVal.rnum (if i = 0 then 1 else 2), RawVal.rnum 2, RawVal.rnum 1,
      RawVal.rnum 2, RawVal.rnum 2, RawVal.rnum 0, (i : ℤ)⟩)


/-- Small three-row payload over two symbols used to instantiate the
aggregator theorem: symbol A has rows at timestamps 1 and 2. -/
def wPayload : List RawRow :=
  [⟨"A", RawVal.rnum 10, RawVal.rnum 12, RawVal.rnum 9, RawVal.rnum 10, RawVal.rnum 10,
      RawVal.rnum 1, 1⟩,
   ⟨"B", RawVal.rnum 7, RawVal.rnum 8, RawVal.rnum 6, RawVal.rnum 7, RawVal.rnum 7,
      RawVal.rnum 0, 1⟩,
   ⟨"A", RawVal.rnum 11, RawVal.rnum 12, RawVal.rnum 9, RawVal.rnum 10, RawVal.rnum 10,
      RawVal.rnum 2, 2⟩]

/-- Claim C10: the pipeline is deterministic: two invocations on the same
fetched payload return identical derived tables (synthetic `TER` and
`Sharpe` columns included), because the generator is re-seeded with the
fixed seed 42 on every invocation before those columns are drawn; the
incoming generator state is never read. -/
theorem pipeline_deterministic (payload : List RawRow) (s1 s2 : ℕ) :
    (load_and_engineer_data payload s1).1 = (load_and_engineer_data payload s2).1 := by
  unfold load_and_engineer_data
  cases engineerTable payload <;> rfl

/-- Claim C4 (evaluation at the failing input): on an empty fetch result
the pipeline takes the error path, not the success path: the column access
raises inside the `try` block, the blanket `except` shows the error state
and returns an empty frame; the aggregator's latest-per-symbol view of that
frame is empty.  No exception propagates to the caller. -/
theorem empty_fetch_error_path (rng : ℕ) :
    (load_and_engineer_data [] rng).1.table = [] ∧
    (load_and_engineer_data [] rng).1.errorShown = true ∧
    aggLatest ((load_and_engineer_data [] rng).1.table) = [] :=
  ⟨rfl, rfl, rfl⟩

/-- Claim C6: the sanitizer coerces every declared-numeric column cell,
parse failures become the default 0, successfully parsed values are kept,
and no input raises (the sanitizer is a total function). -/
theorem sanitizer_coerces (r : RawRow) (v : RawVal) :
    (sanitizeRow r).price = (to_numeric r.price).getD 0 ∧
    (sanitizeRow r).day_high = (to_numeric r.day_high).getD 0 ∧
    (sanitizeRow r).day_low = (to_numeric r.day_low).getD 0 ∧
    (sanitizeRow r).day_open = (to_numeric r.day_open).getD 0 ∧
    (sanitizeRow r).prev_close = (to_numeric r.prev_close).getD 0 ∧
    (sanitizeRow r).change_pct = (to_numeric r.change_pct).getD 0 ∧
    (to_numeric v = none → sanitizeVal v = 0) ∧
    (∀ q, to_numeric v = some q → sanitizeVal v = q) := by
  refine ⟨rfl, rfl, rfl, rfl, rfl, rfl, ?_, ?_⟩
  · intro h; simp [sanitizeVal, h]
  · intro q h; simp [sanitizeVal, h]

/-- Witness for C6: the unparseable string `"abc"` becomes 0, the numeric
cell `5/2` is kept. -/
theorem sanitizer_coerces_witness :
    sanitizeVal (RawVal.rstr "abc") = 0 ∧ sanitizeVal (RawVal.rnum (5 / 2)) = 5 / 2 := by
  have h := sanitizer_coerces ⟨"A", .rnum 1, .rnum 1, .rnum 1, .rnum 1, .rnum 1, .rnum 1, 0⟩
  exact ⟨(h (RawVal.rstr "abc")).2.2.2.2.2.2.1 (by decide),
         (h (RawVal.rnum (5 / 2))).2.2.2.2.2.2.2 (5 / 2) rfl⟩

/-- Claim C7: sanitizing an already-numeric column is a no-op, and hence
sanitizing twice equals sanitizing once. -/
theorem sanitize_idempotent (qs : List ℚ) (c : List RawVal) :
    sanitizeColumn (qs.map RawVal.rnum) = qs ∧
    sanitizeColumn ((sanitizeColumn c).map RawVal.rnum) = sanitizeColumn c := by
  constructor <;>
    simp [sanitizeColumn, List.map_map, Function.comp_def, sanitizeVal, to_numeric]

/-- Claim C9 (spec-modelled): volatility spread and gap are guarded against
a zero denominator, returning the sentinel 0 there and the documented ratio
elsewhere; both functions are total, so no exception is possible. -/
theorem spread_gap_zero_guard (dh dl dop pc : ℚ) :
    volatility_spread dh 0 = 0 ∧ gap_pct dop 0 = 0 ∧
    (dl ≠ 0 → volatility_spread dh dl = (dh - dl) / dl * 100) ∧
    (pc ≠ 0 → gap_pct dop pc = (dop - pc) / pc * 100) := by
  refine ⟨by simp [volatility_spread], by simp [gap_pct], ?_, ?_⟩
  · intro h; simp [volatility_spread, h]
  · intro h; simp [gap_pct, h]

/-- Witness for C9, on the spec's own scenario row: `day_low = 0` yields
the sentinel, and `gap_pct 99 100 = -1`. -/
theorem spread_gap_zero_guard_witness :
    volatility_spread 102 0 = 0 ∧ gap_pct 99 100 = -1 := by
  have h := spread_gap_zero_guard 102 5 99 100
  refine ⟨h.1, ?_⟩
  rw [h.2.2.2 (by norm_num)]
  norm_num


unseal Rat.add Rat.mul Rat.sub Rat.inv Rat.ofScientific

theorem length_diffSeries (l : List ℚ) : (diffSeries l).length = l.length := by
  cases l with
  | nil => rfl
  | cons a t => simp [diffSeries]

theorem length_gains (l : List ℚ) : (gains l).length = l.length := by
  simp [gains, length_diffSeries]

theorem length_losses (l : List ℚ) : (losses l).length = l.length := by
  simp [losses, length_diffSeries]

theorem length_rollingMean (w : ℕ) (l : List ℚ) :
    (rollingMean w l).length = l.length := by
  simp [rollingMean]

theorem length_calc_rsi (l : List ℚ) (w : ℕ) : (calc_rsi l w).length = l.length := by
  simp [calc_rsi, length_rollingMean, length_gains, length_losses]

theorem rollingMean_getElem (w : ℕ) (l : List ℚ) (i : ℕ) (hi : i < l.length) :
    (rollingMean w l)[i]? =
      some (if i + 1 < w then none
        else some (((l.drop (i + 1 - w)).take w).sum / (w : ℚ))) := by
  simp [rollingMean, List.getElem?_range hi]

theorem calc_rsi_getElem (l : List ℚ) (i : ℕ) (g lo : Option ℚ)
    (hg : (rollingMean 14 (gains l))[i]? = some g)
    (hlo : (rollingMean 14 (losses l))[i]? = some lo) :
    (calc_rsi l 14)[i]? = some (rsiOfRs (rsCell g lo)) := by
  simp [calc_rsi, List.getElem?_zipWith', hg, hlo]

theorem gains_nonneg (l : List ℚ) : ∀ x ∈ gains l, 0 ≤ x := by
  intro x hx
  simp only [gains, List.mem_map] at hx
  obtain ⟨d, _, rfl⟩ := hx
  cases d with
  | none => simp
  | some y =>
      dsimp only
      split
      · linarith
      · exact le_refl 0

theorem losses_nonneg (l : List ℚ) : ∀ x ∈ losses l, 0 ≤ x := by
  intro x hx
  simp only [losses, List.mem_map] at hx
  obtain ⟨d, _, rfl⟩ := hx
  cases d with
  | none => simp
  | some y =>
      dsimp only
      split
      · linarith
      · exact le_refl 0

theorem window_mean_nonneg (w : ℕ) (l : List ℚ) (hl : ∀ x ∈ l, 0 ≤ x) (i : ℕ) :
    0 ≤ ((l.drop (i + 1 - w)).take w).sum / (w : ℚ) := by
  apply div_nonneg
  · apply List.sum_nonneg
    intro x hx
    exact hl x (List.mem_of_mem_drop (List.mem_of_mem_take hx))
  · positivity

theorem rsiOfRs_nan : rsiOfRs FVal.nan = FVal.nan := rfl

theorem rsiOfRs_inf : rsiOfRs FVal.inf = FVal.num 100 := by decide

theorem rsiOfRs_num (r : ℚ) (hr : 0 ≤ r) :
    rsiOfRs (FVal.num r) = FVal.num (100 - 100 / (1 + r)) := by
  have h1 : (1 : ℚ) + r ≠ 0 := by positivity
  simp [rsiOfRs, FVal.fadd, FVal.fdiv, FVal.fsub, FVal.fneg, h1, sub_eq_add_neg]

theorem rsi_formula_bounds (r : ℚ) (hr : 0 ≤ r) :
    0 ≤ 100 - 100 / (1 + r) ∧ 100 - 100 / (1 + r) ≤ 100 := by
  have h1 : (0 : ℚ) < 1 + r := by positivity
  have h2 : 100 / (1 + r) ≤ 100 := div_le_self (by norm_num) (by linarith)
  have h3 : 0 ≤ 100 / (1 + r) := by positivity
  constructor <;> linarith

/-- Claim C1 (amended): at a position where the trailing averages are
defined, a zero 14-period average loss together with a nonzero average
gain makes the RSI exactly 100 (via the intermediate infinity); when the
average gain is zero as well, the code yields NaN instead, see the
counterexample. -/
theorem rsi_avg_loss_zero_saturates (l : List ℚ) (i : ℕ) (g : ℚ)
    (hlo : (rollingMean 14 (losses l))[i]? = some (some 0))
    (hg : (rollingMean 14 (gains l))[i]? = some (some g)) (hgz : g ≠ 0) :
    (calc_rsi l 14)[i]? = some (FVal.num 100) := by
  obtain ⟨hi0, -⟩ := List.getElem?_eq_some.mp hg
  rw [length_rollingMean] at hi0
  have hgval := rollingMean_getElem 14 (gains l) i hi0
  rw [hg] at hgval
  have h2 := Option.some_injective _ hgval
  by_cases hwarm : i + 1 < 14
  · rw [if_pos hwarm] at h2
    exact absurd h2 (by simp)
  · rw [if_neg hwarm] at h2
    have hmean := Option.some_injective _ h2
    have h0 := window_mean_nonneg 14 (gains l) (gains_nonneg l) i
    rw [← hmean] at h0
    have hgpos : 0 < g := lt_of_le_of_ne h0 (Ne.symm hgz)
    rw [calc_rsi_getElem l i (some g) (some 0) hg hlo]
    have hcell : rsCell (some g) (some 0) = FVal.inf := by
      simp [rsCell, hgz, hgpos]
    rw [hcell, rsiOfRs_inf]

/-- Witness for C1: a series that rises once and then stays flat has zero
average loss and positive average gain at position 13, and RSI exactly
100 there. -/
theorem rsi_avg_loss_zero_saturates_witness :
    (calc_rsi [1, 2, 2, 2, 2, 2, 2, 2, 2, 2, 2, 2, 2, 2] 14)[13]? =
      some (FVal.num 100) :=
  rsi_avg_loss_zero_saturates [1, 2, 2, 2, 2, 2, 2, 2, 2, 2, 2, 2, 2, 2] 13 (1 / 14)
    (by decide) (by decide) (by norm_num)

/-- Counterexample to C1 as stated: on a constant price series the average
loss at position 13 is 0, yet the RSI there is NaN (0/0), not 100. -/
theorem rsi_avg_loss_zero_cex :
    (rollingMean 14 (losses (List.replicate 14 (5 : ℚ))))[13]? = some (some 0) ∧
    (calc_rsi (List.replicate 14 (5 : ℚ)) 14)[13]? = some FVal.nan ∧
    FVal.nan ≠ FVal.num 100 := by decide

/-- Claim C3 (amended): the RSI column has the same length as the price
series (nothing dropped), its first `min 13 n` entries are the NaN marker,
and every later entry is either a number in the closed interval 0 to 100,
or NaN exactly in the degenerate case where the trailing window has both
zero average gain and zero average loss (a constant window). -/
theorem rsi_warmup_and_range (l : List ℚ) (i : ℕ) (v : FVal)
    (hv : (calc_rsi l 14)[i]? = some v) :
    (calc_rsi l 14).length = l.length ∧
    (i < 13 → v = FVal.nan) ∧
    (13 ≤ i →
      (∃ q, v = FVal.num q ∧ 0 ≤ q ∧ q ≤ 100) ∨
      (v = FVal.nan ∧ (rollingMean 14 (gains l))[i]? = some (some 0) ∧
        (rollingMean 14 (losses l))[i]? = some (some 0))) := by
  obtain ⟨hi0, -⟩ := List.getElem?_eq_some.mp hv
  rw [length_calc_rsi] at hi0
  have higain : i < (gains l).length := by rw [length_gains]; exact hi0
  have hiloss : i < (losses l).length := by rw [length_losses]; exact hi0
  have hgval := rollingMean_getElem 14 (gains l) i higain
  have hlval := rollingMean_getElem 14 (losses l) i hiloss
  have hcalc := calc_rsi_getElem l i _ _ hgval hlval
  rw [hv] at hcalc
  have hveq := Option.some_injective _ hcalc
  refine ⟨length_calc_rsi l 14, ?_, ?_⟩
  · intro h13
    have hwarm : i + 1 < 14 := by omega
    rw [if_pos hwarm, if_pos hwarm] at hveq
    rw [hveq]
    rfl
  · intro h13
    have hwarm : ¬ (i + 1 < 14) := by omega
    rw [if_neg hwarm, if_neg hwarm] at hveq
    set gm := (((gains l).drop (i + 1 - 14)).take 14).sum / ((14 : ℕ) : ℚ) with hgm
    set lm := (((losses l).drop (i + 1 - 14)).take 14).sum / ((14 : ℕ) : ℚ) with hlm
    have hgnn : 0 ≤ gm := window_mean_nonneg 14 (gains l) (gains_nonneg l) i
    have hlnn : 0 ≤ lm := window_mean_nonneg 14 (losses l) (losses_nonneg l) i
    by_cases hl0 : lm = 0
    · by_cases hg0 : gm = 0
      · right
        refine ⟨?_, ?_, ?_⟩
        · rw [hveq]
          simp [rsCell, hl0, hg0, rsiOfRs_nan]
        · rw [hgval, if_neg hwarm, hg0]
        · rw [hlval, if_neg hwarm, hl0]
      · left
        have hgpos : 0 < gm := lt_of_le_of_ne hgnn (Ne.symm hg0)
        refine ⟨100, ?_, by norm_num, le_refl 100⟩
        rw [hveq]
        have : rsCell (some gm) (some lm) = FVal.inf := by
          simp [rsCell, hl0, hg0, hgpos]
        rw [this, rsiOfRs_inf]
    · left
      have hlpos : 0 < lm := lt_of_le_of_ne hlnn (Ne.symm hl0)
      have hrat : 0 ≤ gm / lm := div_nonneg hgnn hlnn
      refine ⟨100 - 100 / (1 + gm / lm), ?_, (rsi_formula_bounds _ hrat).1,
        (rsi_formula_bounds _ hrat).2⟩
      rw [hveq]
      have : rsCell (some gm) (some lm) = FVal.num (gm / lm) := by
        simp [rsCell, hl0]
      rw [this, rsiOfRs_num _ hrat]

/-- Witness for C3: at position 13 of a once-rising then flat series the
theorem places the RSI value 100 inside the closed interval. -/
theorem rsi_warmup_and_range_witness :
    (∃ q, FVal.num 100 = FVal.num q ∧ 0 ≤ q ∧ q ≤ 100) ∨
      (FVal.num 100 = FVal.nan ∧
        (rollingMean 14 (gains [1, 2, 2, 2, 2, 2, 2, 2, 2, 2, 2, 2, 2, 2]))[13]? =
          some (some 0) ∧
        (rollingMean 14 (losses [1, 2, 2, 2, 2, 2, 2, 2, 2, 2, 2, 2, 2, 2]))[13]? =
          some (some 0)) :=
  (rsi_warmup_and_range [1, 2, 2, 2, 2, 2, 2, 2, 2, 2, 2, 2, 2, 2] 13 (FVal.num 100)
    (by decide)).2.2 (by norm_num)

/-- Counterexample to C3 as stated: on a constant series of length 15 the
NaN markers are not confined to the first 13 positions: positions 13 and 14
sit after the warm-up prefix yet hold NaN, not a number in 0 to 100. -/
theorem rsi_warmup_cex :
    (calc_rsi (List.replicate 15 (7 : ℚ)) 14)[13]? = some FVal.nan ∧
    (calc_rsi (List.replicate 15 (7 : ℚ)) 14)[14]? = some FVal.nan := by decide

theorem ddCell_num (p m : ℚ) (hm : m ≠ 0) :
    ddCell p m = FVal.num ((p - m) / m * 100) := by
  simp [ddCell, FVal.fsub, FVal.fadd, FVal.fneg, FVal.fdiv, FVal.fmul, hm, sub_eq_add_neg]

theorem drawdown_tail_nonpos (t : List ℚ) :
    ∀ m : ℚ, 0 < m → (∀ x ∈ t, 0 < x) →
      ∀ v ∈ List.zipWith ddCell t (cummaxGo m t), ∃ q, v = FVal.num q ∧ q ≤ 0 := by
  induction t with
  | nil => intro m _ _ v hv; simp [cummaxGo] at hv
  | cons b t2 ih =>
      intro m hm hpos v hv
      rw [cummaxGo] at hv
      rcases List.mem_cons.mp hv with hhd | htl
      · have hM : 0 < max m b := lt_max_of_lt_left hm
        have hbM : b ≤ max m b := le_max_right m b
        refine ⟨(b - max m b) / max m b * 100, ?_, ?_⟩
        · rw [hhd, ddCell_num b (max m b) (ne_of_gt hM)]
        · have hd : (b - max m b) / max m b ≤ 0 :=
            div_nonpos_iff.mpr (Or.inr ⟨by linarith, le_of_lt hM⟩)
          linarith
      · exact ih (max m b) (lt_max_of_lt_left hm)
          (fun x hx => hpos x (List.mem_cons_of_mem b hx)) v htl

/-- Claim C2 (amended): over a series of positive prices every drawdown
cell is a plain number at most 0, and the first cell is exactly 0.  With a
zero or negative price the code instead produces NaN or positive values,
see the counterexample. -/
theorem drawdown_nonpos_first_zero (l : List ℚ) (hpos : ∀ x ∈ l, 0 < x) :
    (∀ v ∈ drawdownList l, ∃ q, v = FVal.num q ∧ q ≤ 0) ∧
    (l ≠ [] → (drawdownList l)[0]? = some (FVal.num 0)) := by
  cases l with
  | nil => exact ⟨fun v hv => by simp [drawdownList, cummax] at hv, fun h => absurd rfl h⟩
  | cons a t =>
      have hpa : 0 < a := hpos a (List.mem_cons_self a t)
      have hdd : drawdownList (a :: t) =
          ddCell a a :: List.zipWith ddCell t (cummaxGo a t) := by
        simp [drawdownList, cummax]
      have hhead : ddCell a a = FVal.num 0 := by
        rw [ddCell_num a a (ne_of_gt hpa)]
        norm_num
      constructor
      · intro v hv
        rw [hdd] at hv
        rcases List.mem_cons.mp hv with h1 | h2
        · exact ⟨0, by rw [h1, hhead], le_refl 0⟩
        · exact drawdown_tail_nonpos t a hpa
            (fun x hx => hpos x (List.mem_cons_of_mem a hx)) v h2
      · intro _
        rw [hdd]
        simp [hhead]

/-- Witness for C2: the series 4, 2 consists of positive prices and its
first drawdown cell is exactly 0. -/
theorem drawdown_nonpos_first_zero_witness :
    (drawdownList [4, 2])[0]? = some (FVal.num 0) :=
  (drawdown_nonpos_first_zero [4, 2] (by decide)).2 (by simp)

/-- Counterexample to C2 as stated: a first price of 0 (reachable, since
unparseable prices are sanitized to 0) makes the first drawdown cell NaN
rather than 0, and negative prices make a later cell the positive number
100, violating both halves of the claim. -/
theorem drawdown_cex :
    drawdownList [0] = [FVal.nan] ∧
    drawdownList [-1, -2] = [FVal.num 0, FVal.num 100] ∧
    ¬ ((100 : ℚ) ≤ 0) := by decide

theorem length_cummaxGo (t : List ℚ) : ∀ m : ℚ, (cummaxGo m t).length = t.length := by
  induction t with
  | nil => intro m; rfl
  | cons b t2 ih => intro m; simp [cummaxGo, ih]

theorem length_cummax (l : List ℚ) : (cummax l).length = l.length := by
  cases l with
  | nil => rfl
  | cons a t => simp [cummax, length_cummaxGo]

theorem zipWith_struct_proj :
    ∀ (g : List Row) (rs : List FVal) (ms : List ℚ),
      g.length = rs.length → g.length = ms.length →
      ((List.zipWith (fun r (v : FVal × ℚ) =>
            (⟨r, v.1, v.2, ddCell r.price v.2, 0, 0⟩ : DRow)) g (rs.zip ms)).map
          (fun d => d.core) = g ∧
       (List.zipWith (fun r (v : FVal × ℚ) =>
            (⟨r, v.1, v.2, ddCell r.price v.2, 0, 0⟩ : DRow)) g (rs.zip ms)).map
          (fun d => d.RSI) = rs) := by
  intro g
  induction g with
  | nil =>
      intro rs ms h1 _
      cases rs with
      | nil => exact ⟨rfl, rfl⟩
      | cons x xs => simp at h1
  | cons r g2 ih =>
      intro rs ms h1 h2
      cases rs with
      | nil => simp at h1
      | cons x xs =>
          cases ms with
          | nil => simp at h2
          | cons y ys =>
              have h1c : g2.length = xs.length := by simpa using h1
              have h2c : g2.length = ys.length := by simpa using h2
              obtain ⟨e1, e2⟩ := ih xs ys h1c h2c
              constructor <;> simp [List.zip_cons_cons, e1, e2]

theorem addGroupCols_core (g : List Row) :
    (addGroupCols g).map (fun d => d.core) = g := by
  have h := zipWith_struct_proj g (calc_rsi (g.map (fun r => r.price)) 14)
    (cummax (g.map (fun r => r.price)))
    (by rw [length_calc_rsi]; simp)
    (by rw [length_cummax]; simp)
  exact h.1

theorem addGroupCols_RSI (g : List Row) :
    (addGroupCols g).map (fun d => d.RSI) = calc_rsi (g.map (fun r => r.price)) 14 := by
  have h := zipWith_struct_proj g (calc_rsi (g.map (fun r => r.price)) 14)
    (cummax (g.map (fun r => r.price)))
    (by rw [length_calc_rsi]; simp)
    (by rw [length_cummax]; simp)
  exact h.2

theorem core_mem_of_mem_addGroupCols (g : List Row) (d : DRow)
    (hd : d ∈ addGroupCols g) : d.core ∈ g := by
  have := List.mem_map_of_mem (fun d => d.core) hd
  rwa [addGroupCols_core] at this

theorem groupRunsF_fuel :
    ∀ (n m : ℕ) (l : List Row), l.length ≤ n → l.length ≤ m →
      groupRunsF n l = groupRunsF m l := by
  intro n
  induction n with
  | zero =>
      intro m l hn _
      cases l with
      | nil => cases m <;> rfl
      | cons a t => simp at hn
  | succ f ih =>
      intro m l hn hm
      cases l with
      | nil => cases m <;> rfl
      | cons a t =>
          cases m with
          | zero => simp at hm
          | succ k =>
              have hrest : (t.dropWhile (fun r => r.symbol == a.symbol)).length ≤
                  t.length := List.Sublist.length_le (List.dropWhile_sublist _)
              have hf : t.length ≤ f := by simpa using hn
              have hk : t.length ≤ k := by simpa using hm
              show (a :: t.takeWhile (fun r => r.symbol == a.symbol)) ::
                  groupRunsF f (t.dropWhile (fun r => r.symbol == a.symbol)) =
                (a :: t.takeWhile (fun r => r.symbol == a.symbol)) ::
                  groupRunsF k (t.dropWhile (fun r => r.symbol == a.symbol))
              rw [ih k _ (le_trans hrest hf) (le_trans hrest hk)]

theorem groupRuns_nil : groupRuns [] = [] := rfl

theorem groupRuns_cons (a : Row) (t : List Row) :
    groupRuns (a :: t) =
      (a :: t.takeWhile (fun r => r.symbol == a.symbol)) ::
        groupRuns (t.dropWhile (fun r => r.symbol == a.symbol)) := by
  have hrest : (t.dropWhile (fun r => r.symbol == a.symbol)).length ≤ t.length :=
    List.Sublist.length_le (List.dropWhile_sublist _)
  show (a :: t.takeWhile (fun r => r.symbol == a.symbol)) ::
      groupRunsF t.length (t.dropWhile (fun r => r.symbol == a.symbol)) =
    (a :: t.takeWhile (fun r => r.symbol == a.symbol)) ::
      groupRuns (t.dropWhile (fun r => r.symbol == a.symbol))
  rw [groupRunsF_fuel t.length
    (t.dropWhile (fun r => r.symbol == a.symbol)).length _ hrest (le_refl _)]
  rfl

theorem groupRuns_induction (P : List Row → Prop) (h0 : P [])
    (hstep : ∀ a t, P (t.dropWhile (fun r => r.symbol == a.symbol)) → P (a :: t)) :
    ∀ l, P l := by
  have hfuel : ∀ (n : ℕ) (l : List Row), l.length ≤ n → P l := by
    intro n
    induction n with
    | zero =>
        intro l hl
        cases l with
        | nil => exact h0
        | cons a t => simp at hl
    | succ m ih =>
        intro l hl
        cases l with
        | nil => exact h0
        | cons a t =>
            have hrest : (t.dropWhile (fun r => r.symbol == a.symbol)).length ≤ t.length :=
              List.Sublist.length_le (List.dropWhile_sublist _)
            have hlen : t.length ≤ m := by simpa using hl
            exact hstep a t (ih _ (le_trans hrest hlen))
  exact fun l => hfuel l.length l (le_refl _)

theorem flatten_groupRuns (l : List Row) : (groupRuns l).flatten = l := by
  induction l using groupRuns_induction with
  | h0 => rw [groupRuns_nil]; rfl
  | hstep a t ih =>
      rw [groupRuns_cons]
      simp only [List.flatten_cons, ih]
      simp [List.takeWhile_append_dropWhile]

theorem rowLE_symbol_le {u v : Row} (h : rowLE u v) :
    u.symbol.data ≤ v.symbol.data := by
  rcases h with h1 | ⟨h2, _⟩
  · exact le_of_lt h1
  · exact le_of_eq (congrArg String.data h2)

theorem mem_run_symbol (a : Row) (t : List Row) (x : Row)
    (hx : x ∈ a :: t.takeWhile (fun r => r.symbol == a.symbol)) :
    x.symbol = a.symbol := by
  rcases List.mem_cons.mp hx with rfl | h2
  · rfl
  · have h3 := List.mem_takeWhile_imp h2
    simpa using h3

theorem groupRuns_uniform (l : List Row) (s : String) (hne : l ≠ [])
    (hu : ∀ x ∈ l, x.symbol = s) : groupRuns l = [l] := by
  cases l with
  | nil => exact absurd rfl hne
  | cons a t =>
      rw [groupRuns_cons]
      have htake : t.takeWhile (fun r => r.symbol == a.symbol) = t := by
        rw [List.takeWhile_eq_self_iff]
        intro x hx
        rw [beq_iff_eq, hu x (List.mem_cons_of_mem a hx),
          hu a (List.mem_cons_self a t)]
      have hdrop : t.dropWhile (fun r => r.symbol == a.symbol) = [] := by
        rw [List.dropWhile_eq_nil_iff]
        intro x hx
        rw [beq_iff_eq, hu x (List.mem_cons_of_mem a hx),
          hu a (List.mem_cons_self a t)]
      rw [htake, hdrop, groupRuns_nil]

theorem dropWhile_symbol_ne (a : Row) (t : List Row)
    (hs : (a :: t).Sorted rowLE) :
    ∀ x ∈ t.dropWhile (fun r => r.symbol == a.symbol), x.symbol ≠ a.symbol := by
  intro x hx
  obtain ⟨hb, ht⟩ := List.sorted_cons.mp hs
  set rest := t.dropWhile (fun r => r.symbol == a.symbol) with hrest
  cases hr : rest with
  | nil => rw [hr] at hx; simp at hx
  | cons h0 rtail =>
      have hh0 : (fun r => r.symbol == a.symbol) h0 = false := by
        have := List.head_dropWhile_not (fun r => r.symbol == a.symbol) t
        rw [← hrest, hr] at this
        simpa using this
      have hh0ne : h0.symbol ≠ a.symbol := by simpa using hh0
      have hh0t : h0 ∈ t := by
        have : h0 ∈ rest := by rw [hr]; exact List.mem_cons_self h0 rtail
        exact List.Sublist.mem this (List.dropWhile_sublist _)
      have hah0 : a.symbol.data < h0.symbol.data :=
        lt_of_le_of_ne (rowLE_symbol_le (hb h0 hh0t))
          (fun hcon => hh0ne (String.ext hcon.symm))
      have hrests : rest.Sorted rowLE :=
        List.Pairwise.sublist (List.dropWhile_sublist _) ht
      rw [hr] at hx
      rcases List.mem_cons.mp hx with rfl | hx2
      · exact hh0ne
      · have hx0 : rowLE h0 x := by
          rw [hr] at hrests
          exact (List.sorted_cons.mp hrests).1 x hx2
        have hlt : a.symbol.data < x.symbol.data :=
          lt_of_lt_of_le hah0 (rowLE_symbol_le hx0)
        exact fun hcon => absurd (congrArg String.data hcon) (ne_of_gt hlt)

theorem orderedInsert_of_forall_le (a : Row) (L : List Row)
    (h : ∀ x ∈ L, rowLE a x) : List.orderedInsert rowLE a L = a :: L := by
  cases L with
  | nil => rfl
  | cons b t => exact List.orderedInsert_of_le rowLE t (h b (List.mem_cons_self b t))

theorem filter_orderedInsert (p : Row → Bool) (a : Row) :
    ∀ m : List Row, m.Sorted rowLE →
      (List.orderedInsert rowLE a m).filter p =
        if p a then List.orderedInsert rowLE a (m.filter p) else m.filter p := by
  intro m
  induction m with
  | nil =>
      intro _
      cases hpa : p a <;> simp [List.filter, hpa]
  | cons b m2 ih =>
      intro hm
      obtain ⟨hb, hm2⟩ := List.sorted_cons.mp hm
      by_cases hab : rowLE a b
      · rw [List.orderedInsert_of_le rowLE m2 hab]
        cases hpa : p a
        · simp [List.filter_cons, hpa]
        · have hall : ∀ x ∈ (b :: m2).filter p, rowLE a x := by
            intro x hx
            rcases List.mem_cons.mp (List.mem_of_mem_filter hx) with rfl | hx2
            · exact hab
            · exact IsTrans.trans a b x hab (hb x hx2)
          rw [if_pos rfl, orderedInsert_of_forall_le a _ hall]
          simp [List.filter_cons, hpa]
      · have hoi : List.orderedInsert rowLE a (b :: m2) =
            b :: List.orderedInsert rowLE a m2 := by
          simp [List.orderedInsert, hab]
        rw [hoi]
        cases hpb : p b <;> cases hpa : p a <;>
          simp [List.filter_cons, hpb, hpa, ih hm2, List.orderedInsert, hab]

theorem filter_insertionSort (p : Row → Bool) (l : List Row) :
    (List.insertionSort rowLE l).filter p = List.insertionSort rowLE (l.filter p) := by
  induction l with
  | nil => rfl
  | cons a t ih =>
      have hs : (List.insertionSort rowLE t).Sorted rowLE :=
        List.sorted_insertionSort rowLE t
      rw [List.insertionSort, filter_orderedInsert p a _ hs, ih, List.filter_cons]
      cases hpa : p a
      · simp
      · simp [List.insertionSort]

theorem map_core_deriveRuns (L : List Row) :
    (((groupRuns L).map addGroupCols).flatten).map (fun d => d.core) = L := by
  induction L using groupRuns_induction with
  | h0 => rw [groupRuns_nil]; rfl
  | hstep a t ih =>
      rw [groupRuns_cons]
      simp only [List.map_cons, List.flatten_cons, List.map_append, addGroupCols_core, ih]
      simp [List.takeWhile_append_dropWhile]

theorem core_mem_of_mem_deriveRuns (L : List Row) (d : DRow)
    (hd : d ∈ ((groupRuns L).map addGroupCols).flatten) : d.core ∈ L := by
  have := List.mem_map_of_mem (fun d => d.core) hd
  rwa [map_core_deriveRuns] at this

theorem filter_addGroupCols_eq_self (g : List Row) (s : String)
    (hu : ∀ x ∈ g, x.symbol = s) :
    (addGroupCols g).filter (fun d => decide (d.core.symbol = s)) = addGroupCols g := by
  rw [List.filter_eq_self]
  intro d hd
  simp [hu d.core (core_mem_of_mem_addGroupCols g d hd)]

theorem filter_addGroupCols_eq_nil (g : List Row) (s : String)
    (hu : ∀ x ∈ g, x.symbol ≠ s) :
    (addGroupCols g).filter (fun d => decide (d.core.symbol = s)) = [] := by
  rw [List.filter_eq_nil_iff]
  intro d hd
  simp [hu d.core (core_mem_of_mem_addGroupCols g d hd)]

theorem deriveRuns_filter (s : String) :
    ∀ ts : List Row, ts.Sorted rowLE →
      (((groupRuns ts).map addGroupCols).flatten).filter
          (fun d => decide (d.core.symbol = s)) =
        ((groupRuns (ts.filter (fun r => decide (r.symbol = s)))).map
          addGroupCols).flatten := by
  intro ts
  induction ts using groupRuns_induction with
  | h0 =>
      intro _
      simp [groupRuns_nil]
  | hstep a t ih =>
      intro hsorted
      obtain ⟨hb, ht⟩ := List.sorted_cons.mp hsorted
      have hrest_sorted : (t.dropWhile (fun r => r.symbol == a.symbol)).Sorted rowLE :=
        List.Pairwise.sublist (List.dropWhile_sublist _) ht
      have hrest_ne := dropWhile_symbol_ne a t hsorted
      rw [groupRuns_cons]
      simp only [List.map_cons, List.flatten_cons, List.filter_append]
      by_cases hsym : a.symbol = s
      · have huni : ∀ x ∈ a :: t.takeWhile (fun r => r.symbol == a.symbol),
            x.symbol = s := fun x hx => (mem_run_symbol a t x hx).trans hsym
        rw [filter_addGroupCols_eq_self _ s huni]
        have hnil : (((groupRuns (t.dropWhile (fun r => r.symbol == a.symbol))).map
              addGroupCols).flatten).filter (fun d => decide (d.core.symbol = s)) = [] := by
          rw [List.filter_eq_nil_iff]
          intro d hd
          have hne := hrest_ne d.core (core_mem_of_mem_deriveRuns _ d hd)
          have : d.core.symbol ≠ s := fun hcon => hne (hcon.trans hsym.symm)
          simp [this]
        rw [hnil, List.append_nil]
        have hfil : (a :: t).filter (fun r => decide (r.symbol = s)) =
            a :: t.takeWhile (fun r => r.symbol == a.symbol) := by
          rw [List.filter_cons, if_pos (by simp [hsym])]
          congr 1
          conv_lhs => rw [← List.takeWhile_append_dropWhile
            (fun r => r.symbol == a.symbol) t]
          rw [List.filter_append]
          have h1 : (t.takeWhile (fun r => r.symbol == a.symbol)).filter
              (fun r => decide (r.symbol = s)) =
                t.takeWhile (fun r => r.symbol == a.symbol) := by
            rw [List.filter_eq_self]
            intro x hx
            have hxa := List.mem_takeWhile_imp hx
            simp at hxa
            simp [hxa, hsym]
          have h2 : (t.dropWhile (fun r => r.symbol == a.symbol)).filter
              (fun r => decide (r.symbol = s)) = [] := by
            rw [List.filter_eq_nil_iff]
            intro x hx
            have hne := hrest_ne x hx
            have : x.symbol ≠ s := fun hcon => hne (hcon.trans hsym.symm)
            simp [this]
          rw [h1, h2, List.append_nil]
        rw [hfil, groupRuns_uniform _ s (by simp) huni]
        simp
      · have huni : ∀ x ∈ a :: t.takeWhile (fun r => r.symbol == a.symbol),
            x.symbol ≠ s := fun x hx hcon =>
          hsym ((mem_run_symbol a t x hx).symm.trans hcon)
        rw [filter_addGroupCols_eq_nil _ s huni, List.nil_append, ih hrest_sorted]
        have hfil : (a :: t).filter (fun r => decide (r.symbol = s)) =
            (t.dropWhile (fun r => r.symbol == a.symbol)).filter
              (fun r => decide (r.symbol = s)) := by
          rw [List.filter_cons, if_neg (by simp [hsym])]
          conv_lhs => rw [← List.takeWhile_append_dropWhile
            (fun r => r.symbol == a.symbol) t]
          rw [List.filter_append]
          have h1 : (t.takeWhile (fun r => r.symbol == a.symbol)).filter
              (fun r => decide (r.symbol = s)) = [] := by
            rw [List.filter_eq_nil_iff]
            intro x hx
            have hxa := List.mem_takeWhile_imp hx
            simp at hxa
            intro hcon
            simp at hcon
            exact hsym (hxa ▸ hcon)
          rw [h1, List.nil_append]
        rw [hfil]

/-- Claim C5: RSI, rolling maximum and drawdown are derived strictly
per-symbol: restricting the derived table to one symbol's rows gives
exactly the derived table of that symbol's rows alone, so adding or
removing rows of other symbols never changes them. -/
theorem rsi_drawdown_per_symbol (t : List Row) (s : String) :
    (deriveTable t).filter (fun d => d.core.symbol = s) =
      deriveTable (t.filter (fun r => r.symbol = s)) := by
  unfold deriveTable sortTable
  rw [deriveRuns_filter s (List.insertionSort rowLE t)
    (List.sorted_insertionSort rowLE t)]
  rw [filter_insertionSort]

theorem getLast?_cons_of_ne_nil (b : Row) (L : List Row) (h : L ≠ []) :
    (b :: L).getLast? = L.getLast? := by
  cases L with
  | nil => exact absurd rfl h
  | cons c m => exact List.getLast?_cons_cons

theorem mem_of_getLast?_eq (L : List Row) (z : Row) (h : L.getLast? = some z) :
    z ∈ L := by
  obtain ⟨hne, rfl⟩ := List.mem_getLast?_eq_getLast (show z ∈ L.getLast? from h)
  exact List.getLast_mem hne

theorem getLast?_orderedInsert (a : Row) :
    ∀ m : List Row, m.Sorted rowLE → ∀ z : Row, m.getLast? = some z →
      (List.orderedInsert rowLE a m).getLast? =
        some (if rowLE a z then z else a) := by
  intro m
  induction m with
  | nil => intro _ z hz; simp at hz
  | cons b m2 ih =>
      intro hm z hz
      obtain ⟨hb, hm2⟩ := List.sorted_cons.mp hm
      by_cases hab : rowLE a b
      · rw [List.orderedInsert_of_le rowLE m2 hab]
        have hz2 : z ∈ b :: m2 := mem_of_getLast?_eq _ z hz
        have haz : rowLE a z := by
          rcases List.mem_cons.mp hz2 with rfl | hzm
          · exact hab
          · exact IsTrans.trans a b z hab (hb z hzm)
        rw [if_pos haz, List.getLast?_cons_cons, hz]
      · have hoi : List.orderedInsert rowLE a (b :: m2) =
            b :: List.orderedInsert rowLE a m2 := by
          simp [List.orderedInsert, hab]
        rw [hoi]
        cases m2 with
        | nil =>
            have hzb : b = z := by simpa using hz
            rw [← hzb, if_neg hab]
            rfl
        | cons c m3 =>
            have hz3 : (c :: m3).getLast? = some z := by
              rw [← List.getLast?_cons_cons (a := b)]
              exact hz
            rw [getLast?_cons_of_ne_nil b _ (by
              intro hcon
              have h5 := congrArg List.length hcon
              rw [List.orderedInsert_length] at h5
              simp at h5)]
            exact ih hm2 z hz3

theorem getLast?_insertionSort (t : List Row) :
    ∀ a : Row, (List.insertionSort rowLE (a :: t)).getLast? = some (sortLast a t) := by
  induction t with
  | nil => intro a; rfl
  | cons b t2 ih =>
      intro a
      have hs : (List.insertionSort rowLE (b :: t2)).Sorted rowLE :=
        List.sorted_insertionSort rowLE (b :: t2)
      have hoi := getLast?_orderedInsert a _ hs (sortLast b t2) (ih b)
      rw [show List.insertionSort rowLE (a :: b :: t2) =
        List.orderedInsert rowLE a (List.insertionSort rowLE (b :: t2)) from rfl]
      rw [hoi, sortLast]

theorem sortLast_mem : ∀ (t : List Row) (a : Row), sortLast a t ∈ a :: t := by
  intro t
  induction t with
  | nil => intro a; simp [sortLast]
  | cons b t2 ih =>
      intro a
      rw [sortLast]
      split
      · exact List.mem_cons_of_mem a (ih b)
      · exact List.mem_cons_self a _

theorem rowLE_iff_ts (u v : Row) (h : u.symbol = v.symbol) :
    rowLE u v ↔ u.ingested_at ≤ v.ingested_at := by
  unfold rowLE
  rw [h]
  simp [lt_irrefl]

theorem foldl_pickLater_eq (u : List Row) :
    ∀ x y : Row, List.foldl pickLater (pickLater x y) u =
      if x.ingested_at ≤ (List.foldl pickLater y u).ingested_at
      then List.foldl pickLater y u else x := by
  induction u with
  | nil =>
      intro x y
      simp only [List.foldl_nil]
      rfl
  | cons c u2 ih =>
      intro x y
      simp only [List.foldl_cons]
      rw [ih (pickLater x y) c, ih y c]
      unfold pickLater
      split_ifs <;> first | rfl | omega

theorem sortLast_eq_latestRow (s : String) :
    ∀ (t : List Row) (a : Row), (∀ x ∈ a :: t, x.symbol = s) →
      sortLast a t = latestRow a t := by
  intro t
  induction t with
  | nil => intro a _; rfl
  | cons b t2 ih =>
      intro a hu
      have hu2 : ∀ x ∈ b :: t2, x.symbol = s :=
        fun x hx => hu x (List.mem_cons_of_mem a hx)
      have hM : sortLast b t2 ∈ b :: t2 := sortLast_mem t2 b
      have hMs : (sortLast b t2).symbol = s := hu2 _ hM
      have has : a.symbol = s := hu a (List.mem_cons_self a _)
      rw [sortLast, ih b hu2]
      have hiff : rowLE a (latestRow b t2) ↔
          a.ingested_at ≤ (latestRow b t2).ingested_at := by
        apply rowLE_iff_ts
        rw [has]
        rw [ih b hu2] at hMs
        exact hMs.symm
      have hlat : latestRow a (b :: t2) =
          if a.ingested_at ≤ (latestRow b t2).ingested_at
          then latestRow b t2 else a := by
        unfold latestRow
        simp only [List.foldl_cons]
        exact foldl_pickLater_eq t2 a b
      rw [hlat]
      by_cases hc : a.ingested_at ≤ (latestRow b t2).ingested_at
      · rw [if_pos hc, if_pos (hiff.mpr hc)]
      · rw [if_neg hc, if_neg (fun hcon => hc (hiff.mp hcon))]

theorem getLast?_sortTable_uniform (s : String) (a : Row) (t : List Row)
    (hu : ∀ x ∈ a :: t, x.symbol = s) :
    (sortTable (a :: t)).getLast? = some (latestRow a t) := by
  unfold sortTable
  rw [getLast?_insertionSort t a, sortLast_eq_latestRow s t a hu]

theorem length_randStream (n : ℕ) : ∀ s : ℕ, (randStream n s).1.length = n := by
  induction n with
  | zero => intro s; rfl
  | succ m ih => intro s; simp [randStream, ih]

theorem zipWith_synth_proj :
    ∀ (dt : List DRow) (z : List (ℚ × ℚ)), dt.length ≤ z.length →
      (List.zipWith (fun r (v : ℚ × ℚ) =>
          { r with TER := 0.15 + v.1 * 0.5, Sharpe := 1.2 + v.2 * 2.1 }) dt z).map
        (fun d => (d.core, d.RSI)) = dt.map (fun d => (d.core, d.RSI)) := by
  intro dt
  induction dt with
  | nil => intro z _; rfl
  | cons d t ih =>
      intro z hz
      cases z with
      | nil => simp at hz
      | cons v z2 =>
          have hz2 : t.length ≤ z2.length := by simpa using hz
          simp [ih z2 hz2]

theorem addSynth_pair (dt : List DRow) :
    ((addSynth dt).1).map (fun d => (d.core, d.RSI)) =
      dt.map (fun d => (d.core, d.RSI)) := by
  unfold addSynth
  apply zipWith_synth_proj
  rw [List.length_zip, length_randStream, length_randStream]
  omega

theorem filter_map_pair :
    ∀ l1 l2 : List DRow,
      l1.map (fun d => (d.core, d.RSI)) = l2.map (fun d => (d.core, d.RSI)) →
      ∀ s : String,
        (l1.filter (fun d => d.core.symbol = s)).map (fun d => (d.core, d.RSI)) =
          (l2.filter (fun d => d.core.symbol = s)).map (fun d => (d.core, d.RSI)) := by
  intro l1
  induction l1 with
  | nil =>
      intro l2 h s
      cases l2 with
      | nil => rfl
      | cons d2 t2 => simp at h
  | cons d1 t1 ih =>
      intro l2 h s
      cases l2 with
      | nil => simp at h
      | cons d2 t2 =>
          simp only [List.map_cons, List.cons.injEq, Prod.mk.injEq] at h
          obtain ⟨⟨hc, hr⟩, htl⟩ := h
          simp only [List.filter_cons, hc]
          by_cases hd : d2.core.symbol = s
          · simp [hd, hc, hr, ih t2 htl s]
          · simp [hd, ih t2 htl s]

theorem lookup_key_map (f : String → AggRow) (s : String) :
    ∀ keys : List String, s ∈ keys → keys.Nodup →
      List.lookup s (keys.map (fun k => (k, f k))) = some (f s) := by
  intro keys
  induction keys with
  | nil => intro h _; simp at h
  | cons k ks ih =>
      intro hs hnd
      by_cases hek : s = k
      · subst hek
        simp [List.lookup]
      · have hs2 : s ∈ ks := by
          rcases List.mem_cons.mp hs with h | h
          · exact absurd h hek
          · exact h
        have hbeq : (s == k) = false := beq_eq_false_iff_ne.mpr hek
        simp only [List.map_cons, List.lookup, hbeq]
        exact ih hs2 (List.nodup_cons.mp hnd).2

theorem lookup_aggLatest (dt : List DRow) (s : String)
    (hs : s ∈ dt.map (fun r => r.core.symbol)) :
    List.lookup s (aggLatest dt) =
      some (aggRow (dt.filter (fun r => r.core.symbol = s))) := by
  unfold aggLatest
  exact lookup_key_map (fun k => aggRow (dt.filter (fun r => r.core.symbol = k))) s
    ((dt.map (fun r => r.core.symbol)).dedup) (List.mem_dedup.mpr hs)
    ((dt.map (fun r => r.core.symbol)).nodup_dedup)

/-- Claim C8 (amended): for every symbol present in the payload, the
aggregator returns a row; its never-null columns (here price, timestamp
and change percentage) do come from the row with the maximum
`ingested_at`, ties broken by insertion order with the last occurrence
winning, and this is well-defined with a single row.  The amendment: the
`RSI` column is reduced per column to its last non-null cell of the
symbol's time-sorted series, which need not belong to that same row, see
the counterexample. -/
theorem agg_latest_per_column (payload : List RawRow) (s : String)
    (hne : (payload.map sanitizeRow).filter (fun r => r.symbol = s) ≠ []) :
    ∃ ar : AggRow,
      List.lookup s (aggLatest (pipelineTable payload)) = some ar ∧
      ar.price =
        (latestRowOf ((payload.map sanitizeRow).filter (fun r => r.symbol = s))).price ∧
      ar.ingested_at =
        (latestRowOf ((payload.map sanitizeRow).filter (fun r => r.symbol = s))).ingested_at ∧
      ar.change_pct =
        (latestRowOf ((payload.map sanitizeRow).filter (fun r => r.symbol = s))).change_pct ∧
      ar.RSI = lastNonNull (calc_rsi
        ((sortTable ((payload.map sanitizeRow).filter (fun r => r.symbol = s))).map
          (fun r => r.price)) 14) := by
  set rows := payload.map sanitizeRow with hrows
  set D := deriveTable rows with hD
  set dt := pipelineTable payload with hdt
  have hdt2 : dt = (addSynth D).1 := rfl
  obtain ⟨a, t', hft⟩ : ∃ a t', rows.filter (fun r => r.symbol = s) = a :: t' := by
    cases hc : rows.filter (fun r => r.symbol = s) with
    | nil => exact absurd hc hne
    | cons a t' => exact ⟨a, t', rfl⟩
  have hfu : ∀ x ∈ a :: t', x.symbol = s := by
    intro x hx
    rw [← hft] at hx
    have := (List.mem_filter.mp hx).2
    simpa using this
  have hamem : a ∈ rows := by
    have : a ∈ rows.filter (fun r => r.symbol = s) := by
      rw [hft]; exact List.mem_cons_self a t'
    exact (List.mem_filter.mp this).1
  have hmcD : D.map (fun d => d.core) = sortTable rows := by
    rw [hD]
    unfold deriveTable
    exact map_core_deriveRuns (sortTable rows)
  have hmc : dt.map (fun d => d.core) = sortTable rows := by
    rw [hdt2]
    have h1 := addSynth_pair D
    have h2 : ((addSynth D).1).map (fun d => d.core) = D.map (fun d => d.core) := by
      have h3 := congrArg (List.map Prod.fst) h1
      simpa [List.map_map, Function.comp_def] using h3
    rw [h2, hmcD]
  have hsmem : s ∈ dt.map (fun r => r.core.symbol) := by
    have h4 : dt.map (fun r => r.core.symbol) =
        (sortTable rows).map (fun r => r.symbol) := by
      rw [show dt.map (fun r => r.core.symbol) =
        (dt.map (fun d => d.core)).map (fun r => r.symbol) by
          rw [List.map_map]; rfl]
      rw [hmc]
    rw [h4, List.mem_map]
    refine ⟨a, ?_, hfu a (List.mem_cons_self a t')⟩
    unfold sortTable
    rw [List.mem_insertionSort rowLE]
    exact hamem
  have hlk := lookup_aggLatest dt s hsmem
  set g := dt.filter (fun r => r.core.symbol = s) with hg
  have hC5 := rsi_drawdown_per_symbol rows s
  set st := sortTable (a :: t') with hst
  have hstu : ∀ x ∈ st, x.symbol = s := by
    intro x hx
    rw [hst] at hx
    unfold sortTable at hx
    exact hfu x ((List.mem_insertionSort rowLE).mp hx)
  have hstne : st ≠ [] := by
    rw [hst]
    unfold sortTable
    intro hcon
    have h5 := congrArg List.length hcon
    rw [List.length_insertionSort] at h5
    simp at h5
  have hgr : groupRuns st = [st] := groupRuns_uniform st s hstne hstu
  have hDT : deriveTable (rows.filter (fun r => r.symbol = s)) = addGroupCols st := by
    unfold deriveTable
    rw [hft, ← hst, hgr]
    simp
  have hpair : g.map (fun d => (d.core, d.RSI)) =
      (addGroupCols st).map (fun d => (d.core, d.RSI)) := by
    rw [hg, hdt2]
    rw [filter_map_pair ((addSynth D).1) D (addSynth_pair D) s]
    rw [hC5, hDT]
  have hcoreCol : g.map (fun d => d.core) = st := by
    have h6 := congrArg (List.map Prod.fst) hpair
    simp only [List.map_map, Function.comp_def] at h6
    rw [show (addGroupCols st).map (fun x => ((x.core, x.RSI) : Row × FVal).1) =
      (addGroupCols st).map (fun x => x.core) from rfl, addGroupCols_core] at h6
    exact h6
  have hRSICol : g.map (fun d => d.RSI) = calc_rsi (st.map (fun r => r.price)) 14 := by
    have h7 := congrArg (List.map Prod.snd) hpair
    simp only [List.map_map, Function.comp_def] at h7
    rw [show (addGroupCols st).map (fun x => ((x.core, x.RSI) : Row × FVal).2) =
      (addGroupCols st).map (fun x => x.RSI) from rfl, addGroupCols_RSI] at h7
    exact h7
  have hglast : (g.getLast?).map (fun d => d.core) = some (latestRow a t') := by
    rw [← List.getLast?_map, hcoreCol, hst]
    exact getLast?_sortTable_uniform s a t' hfu
  obtain ⟨dlast, hdl, hdlc⟩ : ∃ dl, g.getLast? = some dl ∧ dl.core = latestRow a t' := by
    cases hgl : g.getLast? with
    | none => rw [hgl] at hglast; simp at hglast
    | some dl =>
        rw [hgl] at hglast
        exact ⟨dl, rfl, by simpa using hglast⟩
  have haggP : (aggRow g).price = (g.getLast?.getD default).core.price := rfl
  have haggT : (aggRow g).ingested_at = (g.getLast?.getD default).core.ingested_at := rfl
  have haggC : (aggRow g).change_pct = (g.getLast?.getD default).core.change_pct := rfl
  have haggR : (aggRow g).RSI = lastNonNull (g.map (fun d => d.RSI)) := rfl
  refine ⟨aggRow g, hlk, ?_, ?_, ?_, ?_⟩
  · rw [hft, haggP, hdl]
    simp only [Option.getD_some]
    rw [hdlc]
    rfl
  · rw [hft, haggT, hdl]
    simp only [Option.getD_some]
    rw [hdlc]
    rfl
  · rw [hft, haggC, hdl]
    simp only [Option.getD_some]
    rw [hdlc]
    rfl
  · rw [hft, haggR, hRSICol, hst]

/-- Witness for C8: on the three-row payload the aggregator returns a row
for symbol A whose never-null columns come from the timestamp-2 row. -/
theorem agg_latest_per_column_witness :
    ∃ ar : AggRow,
      List.lookup "A" (aggLatest (pipelineTable wPayload)) = some ar ∧
      ar.price =
        (latestRowOf ((wPayload.map sanitizeRow).filter (fun r => r.symbol = "A"))).price ∧
      ar.ingested_at =
        (latestRowOf ((wPayload.map sanitizeRow).filter (fun r => r.symbol = "A"))).ingested_at ∧
      ar.change_pct =
        (latestRowOf ((wPayload.map sanitizeRow).filter (fun r => r.symbol = "A"))).change_pct ∧
      ar.RSI = lastNonNull (calc_rsi
        ((sortTable ((wPayload.map sanitizeRow).filter (fun r => r.symbol = "A"))).map
          (fun r => r.price)) 14) :=
  agg_latest_per_column wPayload "A" (by decide)

set_option maxRecDepth 8000 in
/-- Counterexample to C8 as stated: on the 16-row payload the row with the
maximum `ingested_at` (timestamp 15, the table's last row after sorting)
has RSI NaN, yet the aggregated row for the symbol reports RSI 100 taken
from an earlier row: `groupby.last()` reduces per column, skipping nulls,
so the result is not the values of any single selected row. -/
theorem agg_latest_cex :
    (List.lookup "A" (aggLatest (pipelineTable cexPayload))).map (fun ar => ar.RSI) =
      some (FVal.num 100) ∧
    ((pipelineTable cexPayload).getLast?).map (fun d => d.RSI) = some FVal.nan ∧
    ((pipelineTable cexPayload).getLast?).map (fun d => d.core.ingested_at) =
      some 15 := by
  refine ⟨by decide, by decide, by decide⟩
